import Mathlib

/-
Verification of the metadata-resolution and tabular-assembly engine of
BIDS2ISATab (src/bids2isatab/main.py), as a shallow embedding in Lean 4.

Modelling conventions:
  * JSON documents parsed by json.load are modelled by the inductive type
    Value below; Python dicts become association lists (json objects have
    unique keys, captured by the well-formedness predicate wfV).
  * Python set objects (of key-path tuples) become Finset (List String);
    the order in which Python iterates such a set is not fixed, so
    functions that depend on it take an explicit enumeration list.
  * Python functions that can raise return Except; the only exception
    path modelled is the uncaught TypeError of get_chainvalue.
-/

/-- JSON-like values, as produced by json.load on sidecar documents.
Numbers are modelled as integers (only truthiness of zero matters to the
code under verification). -/
inductive Value where
  | null : Value
  | bool (b : Bool) : Value
  | int (n : Int) : Value
  | str (s : String) : Value
  | list (l : List Value) : Value
  | dict (entries : List (String × Value)) : Value

/-- Python truthiness of a Value, as used by the `if d` test in
get_keychains: None, False, 0, "", [], and \x7b\x7d are falsy. -/
def truthy : Value → Bool
  | .null => false
  | .bool b => b
  | .int n => n != 0
  | .str s => s != ""
  | .list l => !l.isEmpty
  | .dict entries => !entries.isEmpty

/-- Python equality test `d == "UNDEFINED"` of get_keychains: true exactly
for the sentinel string. -/
def isUndef : Value → Bool
  | .str s => s == "UNDEFINED"
  | _ => false

/-- Association-list lookup, modelling Python dict indexing / dict.get on
string-keyed dicts. -/
def dictGet {α : Type} : List (String × α) → String → Option α
  | [], _ => none
  | (k, v) :: rest, key => if k = key then some v else dictGet rest key

/-- Embedding of get_chainvalue (main.py lines 132-138).  The Python walks
`src` by `src = src[key]` inside a `try ... except KeyError: return None`.
A missing key in a dict raises KeyError, which is caught (result: ok none).
Subscripting a non-dict value with a string key raises TypeError, which the
code does NOT catch (result: error ()). -/
def get_chainvalue : List String → Value → Except Unit (Option Value)
  | [], v => .ok (some v)
  | key :: rest, .dict entries =>
      match dictGet entries key with
      | some v => get_chainvalue rest v
      | none => .ok none
  | _ :: _, _ => .error ()

/-- Plain walk of a document along a key path, succeeding only when every
step goes through a dict that has the key.  Auxiliary to relate
get_keychains with get_chainvalue. -/
def walkValue : List String → Value → Option Value
  | [], v => some v
  | key :: rest, .dict entries =>
      match dictGet entries key with
      | some v => walkValue rest v
      | none => none
  | _ :: _, _ => none

/-- Every value that get_chainvalue subscripts along the chain is a dict
(the walk may also end early at a missing key, which is fine).  This is
exactly the condition under which no TypeError occurs. -/
def dictsAlong : List String → Value → Bool
  | [], _ => true
  | key :: rest, .dict entries =>
      match dictGet entries key with
      | some v => dictsAlong rest v
      | none => true
  | _ :: _, _ => false

/-- The walk reaches a dict that is missing the next key (the KeyError
path of get_chainvalue). -/
def missesKey : List String → Value → Bool
  | [], _ => false
  | key :: rest, .dict entries =>
      match dictGet entries key with
      | some v => missesKey rest v
      | none => true
  | _ :: _, _ => false

/-- Discriminates the Except results of get_chainvalue: true when the call
returned normally, false when a TypeError escaped. -/
def exceptOk {ε α : Type} : Except ε α → Bool
  | .ok _ => true
  | .error _ => false

/-- Keys of an association list are pairwise distinct (Python dicts cannot
hold duplicate keys). -/
def keysNodup : List String → Bool
  | [] => true
  | k :: rest => !(rest.contains k) && keysNodup rest

mutual

/-- Well-formed document: every dict in it has pairwise distinct keys.
Exactly the Values that arise from Python dicts via json.load. -/
def wfV : Value → Bool
  | .dict entries => keysNodup (entries.map Prod.fst) && wfL entries
  | _ => true

/-- Well-formedness of the entries of a dict. -/
def wfL : List (String × Value) → Bool
  | [] => true
  | (_, v) :: rest => wfV v && wfL rest

end

mutual

/-- Embedding of get_keychains (main.py lines 141-149): recursively
descends dicts, extending the prefix with each key; at a non-dict leaf it
adds the prefix to the accumulated set iff the leaf is truthy and not the
sentinel string "UNDEFINED". -/
def get_keychains : Value → Finset (List String) → List String → Finset (List String)
  | .dict entries, dest, pfx => get_keychainsEntries entries dest pfx
  | d, dest, pfx => if truthy d && !isUndef d then insert pfx dest else dest

/-- The `for item in d` loop of get_keychains over the entries of a dict. -/
def get_keychainsEntries : List (String × Value) → Finset (List String) → List String → Finset (List String)
  | [], dest, _ => dest
  | (k, v) :: rest, dest, pfx => get_keychainsEntries rest (get_keychains v dest (pfx ++ [k])) pfx

end

/-- Python dict assignment `m[key] = v` on an association list: replaces
the value at an existing key in place (keeping its position), otherwise
appends the new binding at the end, matching dict insertion order. -/
def dictSet : List (String × Value) → String → Value → List (String × Value)
  | [], key, v => [(key, v)]
  | (k, w) :: rest, key, v =>
      if k = key then (k, v) :: rest else (k, w) :: dictSet rest key v

/-- Python `base.update(upd)`: folds the entries of upd into base one by
one, overwriting same-key entries — a shallow top-level override. -/
def dict_update (base upd : List (String × Value)) : List (String × Value) :=
  upd.foldl (fun acc kv => dictSet acc kv.1 kv.2) base

/-- Core of get_metadata_for_nifti (main.py lines 123-129): the candidate
sidecar documents, ordered Top, Subject, (Session,) File, are folded into
an accumulator starting from the empty dict.  A candidate path that does
not exist contributes nothing (modelled as none) and is silently skipped;
an existing one is parsed and merged via dict.update. -/
def merge_docs (docs : List (Option (List (String × Value)))) : List (String × Value) :=
  docs.foldl
    (fun acc doc =>
      match doc with
      | some prm => dict_update acc prm
      | none => acc)
    []

/-- The same fold restricted to the documents that are present. -/
def merge_present (docs : List (List (String × Value))) : List (String × Value) :=
  docs.foldl (fun acc prm => dict_update acc prm) []

/-- The static synonym table parameter_name_map (main.py lines 74-84);
the source dict literal repeats the receivecoilname entry, which a Python
dict collapses to a single binding. -/
def parameter_name_map : List (String × String) :=
  [("manufacturermodelname", "instrument name"),
   ("manufacturer", "instrument manufacturer"),
   ("receivecoilname", "coil type"),
   ("magneticfieldstrength", "magnetic field strength"),
   ("echotime", "echo time"),
   ("repetitiontime", "repetition time"),
   ("flipangle", "flip angle"),
   ("pulsesequencetype", "sequence")]

/-- ASCII lower-casing of one character, the effect of Python str.lower()
on the ASCII field names that occur in sidecar documents. -/
def charLower (c : Char) : Char :=
  if 65 ≤ c.toNat ∧ c.toNat ≤ 90 then Char.ofNat (c.toNat + 32) else c

/-- Python str.lower() (field names are ASCII). -/
def lowerString (s : String) : String := String.mk (s.data.map charLower)

/-- Normalisation step of _get_mri_assay_df (main.py line 258):
`parameter_name_map.get(field_name.lower(), field_name)`. -/
def normalize_field_name (fieldName : String) : String :=
  match dictGet parameter_name_map (lowerString fieldName) with
  | some canonical => canonical
  | none => fieldName

/-- Column identifier built for a discovered key path (main.py lines
256-260): join the tokens with a colon, normalise, wrap in
`Parameter Value[...]`. -/
def column_id (field : List String) : String :=
  "Parameter Value[" ++ normalize_field_name (String.intercalate ":" field) ++ "]"

/-- OrderedDict key insertion: a repeated key keeps its original position,
a new key goes to the end. -/
def odInsert (keys : List String) (k : String) : List String :=
  if keys.contains k then keys else keys ++ [k]

/-- Column order of the assay table built by _get_mri_assay_df (main.py
lines 214-273).  The assay OrderedDict receives, in program order:
Protocol REF; the fixed head columns; one parameter column per element of
the iteration of the Python set new_fields (whose enumeration order the
environment does not fix — it is therefore an explicit argument here); and
finally Assay Name and Raw Data File.  The source iterates new_fields
directly without sorting it. -/
def assay_columns (newFieldsEnum : List (List String)) : List String :=
  let fixedHead := ["Protocol REF", "Sample Name", "Parameter Value[Modality]",
                    "Parameter Value[Resolution]", "Unit"]
  let withParams := newFieldsEnum.foldl (fun ks f => odInsert ks (column_id f)) fixedHead
  (["Assay Name", "Raw Data File"]).foldl odInsert withParams

/-- The constant list assigned at main.py line 247. -/
def mri_par_names : List String := ["Resolution", "Modality"]

/-- Observable outputs of _get_mri_assay_df that the claims refer to: the
assay-table column order and the second return value mri_par_names. -/
def _get_mri_assay_df (newFieldsEnum : List (List String)) : List String × List String :=
  (assay_columns newFieldsEnum, mri_par_names)

/-- Embedding of the substitution part of _get_investigation_template
(main.py lines 293-297): the title and the semicolon-joined parameter
names are substituted into the fixed template text. -/
def _get_investigation_template (template title : String) (parNames : List String) : String :=
  (template.replace "[TODO: TITLE]" title).replace
    "[TODO: MRI_PAR_NAMES]" (String.intercalate ";" parNames)

/-- An entry of ontology_term_map: Python None, a quantitative
(sourceRef, accession, unit) tuple, or a qualitative dict mapping raw
values to (sourceRef, accession) pairs. -/
inductive OntEntry where
  | pynone : OntEntry
  | quant (ref acc u : String) : OntEntry
  | qual (table : List (String × String × String)) : OntEntry

/-- The static table ontology_term_map (main.py lines 22-68), in source
order.  Qualitative entries list (value, sourceRef, accession) rows. -/
def ontology_term_map : List (String × OntEntry) :=
  [("Characteristics[organism]",
      .qual [("homo sapiens", "NCBITAXON", "NCBITaxon:9606")]),
   ("Characteristics[organism part]",
      .qual [("brain", "UBERON", "UBERON:0000955")]),
   ("Characteristics[sex]",
      .qual [("female", "PATO", "PATO:0000383"),
             ("male", "PATO", "PATO:0000384")]),
   ("Characteristics[handedness]",
      .qual [("right", "PATO", "PATO:0002203"),
             ("left", "PATO", "PATO:0002202"),
             ("ambidextrous", "PATO", "PATO:0002204")]),
   ("Characteristics[age at scan]", .quant "UO" "UO:0000036" "year"),
   ("Parameter Value[resolution]", .quant "UO" "UO:0000016" "millimeter"),
   ("Parameter Value[repetition time]", .quant "UO" "UO:0000010" "second"),
   ("Parameter Value[magnetic field strength]", .quant "UO" "UO:0000228" "tesla"),
   ("Parameter Value[flip angle]", .quant "UO" "UO:0000185" "degree"),
   ("Parameter Value[echo time]", .quant "UO" "UO:0000010" "second"),
   ("Parameter Value[instrument name]", .pynone),
   ("Parameter Value[instrument manufacturer]", .pynone),
   ("Parameter Value[coil type]", .pynone),
   ("Parameter Value[sequence]", .pynone),
   ("Protocol REF", .pynone),
   ("Sample Name", .pynone),
   ("Assay Name", .pynone),
   ("Raw Data File", .pynone)]

/-- Key set of ontology_term_map: what the Python test `k in ontology_term_map`
tests (keys mapped to None included). -/
def ontology_keys : List String := ontology_term_map.map Prod.fst

/-- The drop argument of _drop_from_df: Python None, the string
the string "unknown", or an explicit list of parameter names. -/
inductive DropArg where
  | noDrop : DropArg
  | unknown : DropArg
  | explicitList (names : List String) : DropArg

/-- Embedding of _drop_from_df (main.py lines 300-315) at the level of
the table's column-name sequence.  Returns (kept columns, dropped
columns); each dropped column is reported by name via the print call,
modelled by the second component. -/
def _drop_from_df (cols : List String) (drop : DropArg) : List String × List String :=
  match drop with
  | .noDrop => (cols, [])
  | .unknown =>
      let dropList := cols.filter (fun k => !ontology_keys.contains k)
      (cols.filter (fun k => !dropList.contains k),
       cols.filter (fun k => dropList.contains k))
  | .explicitList names =>
      let dropList := names.map (fun d => "Parameter Value[" ++ d ++ "]")
      (cols.filter (fun k => !dropList.contains k),
       cols.filter (fun k => dropList.contains k))

/-- A column of the annotated output table: either a broadcast scalar
(pandas replicates it on every row) or a per-row series in which none
marks a null cell. -/
inductive ColData where
  | scalar (v : Value) : ColData
  | series (vs : List (Option Value)) : ColData

/-- Python isinstance(term_map, tuple): only the quantitative entries of
ontology_term_map are tuples; qualitative entries are dicts and None is
not a tuple. -/
def isTupleEntry : OntEntry → Bool
  | .quant _ _ _ => true
  | _ => false

/-- Lookup of a raw cell value in a qualitative value table, modelling
`term_map.get(v, (None, None))`: only string cells can match the string
keys. -/
def qualGet (table : List (String × String × String)) (cell : Option Value) :
    Option (String × String) :=
  match cell with
  | some (Value.str s) => dictGet (table.map (fun r => (r.1, (r.2.1, r.2.2)))) s
  | _ => none

/-- Loop body of _df_with_ontology_info (main.py lines 320-345) for one
column.  Returns the emitted (name, data) items together with the
unknown-value warnings (offending cell, column name, known values) that
the qualitative branch would log.  The source guards the quantitative
branch with `if isinstance(term_map, tuple)` and the qualitative branch
with `elif isinstance(term_map, tuple)` — the very same condition — which
this embedding reproduces verbatim via isTupleEntry. -/
def annotateColumn (col : String) (vals : List (Option Value)) :
    List (String × ColData) × List (Option Value × String × List String) :=
  let base : List (String × ColData) := [(col, ColData.series vals)]
  match dictGet ontology_term_map col with
  | Option.none => (base, [])
  | some OntEntry.pynone => (base, [])
  | some tm =>
      if isTupleEntry tm then
        match tm with
        | OntEntry.quant ref acc u =>
            (base ++ [("Unit", ColData.scalar (Value.str u)),
                      ("Term Source REF", ColData.scalar (Value.str ref)),
                      ("Term Accession Number", ColData.scalar (Value.str acc))], [])
        | _ => (base, [])
      else if isTupleEntry tm then
        match tm with
        | OntEntry.qual table =>
            let refs := vals.map (fun v => (qualGet table v).map (fun rc => Value.str rc.1))
            let accs := vals.map (fun v => (qualGet table v).map (fun rc => Value.str rc.2))
            let warns := (vals.filter (fun v => (qualGet table v).isNone)).map
              (fun v => (v, col, table.map (fun r => r.1)))
            (base ++ [("Term Source REF", ColData.series refs),
                      ("Term Accession Number", ColData.series accs)], warns)
        | _ => (base, [])
      else (base, [])

/-- Embedding of _df_with_ontology_info (main.py lines 318-346): each
input column is emitted unconditionally, followed by whatever auxiliary
columns its ontology entry produces; warnings accumulate alongside. -/
def _df_with_ontology_info (df : List (String × List (Option Value))) :
    List (String × ColData) × List (Option Value × String × List String) :=
  df.foldr
    (fun colval acc =>
      let r := annotateColumn colval.1 colval.2
      (r.1 ++ acc.1, r.2 ++ acc.2))
    ([], [])

/-- Lexicographic code-point comparison of character lists, the order
Python uses to compare strings. -/
def charsLe : List Char → List Char → Bool
  | [], _ => true
  | _ :: _, [] => false
  | c :: cs, d :: ds =>
      if c.toNat < d.toNat then true
      else if c.toNat = d.toNat then charsLe cs ds
      else false

/-- Python string comparison s <= t. -/
def pyStrLe (s t : String) : Bool := charsLe s.data t.data

/-- Insertion into a lexicographically sorted list of strings. -/
def insertSorted (s : String) : List String → List String
  | [] => [s]
  | x :: xs => if pyStrLe s x then s :: x :: xs else x :: insertSorted s xs

/-- The Python list.sort() on a list of strings (stable, lexicographic by
code points). -/
def sortStrings (l : List String) : List String := l.foldr insertSorted []

/-- The pandas inner merge of _get_study_df on the Sample Name key: for
each left row, in left order, one output row per matching right row.  A
left row with no match is silently absent from the result (how=inner is
the pd.merge default). -/
def innerJoinRows (ids : List String) (ptable : List (String × List String)) :
    List (String × List String) :=
  ids.foldr
    (fun i acc => ((ptable.filter (fun r => r.1 = i)).map (fun r => (i, r.2))) ++ acc)
    []

/-- Embedding of _get_study_df (main.py lines 152-186) at row level.
Input: the sub-* directory basenames in enumeration order, and the
optional participants.tsv rows (participant_id, other columns).  Subject
ids are the basenames with the leading "sub-" stripped, sorted; each
yields one study row; when participants.tsv exists, its ids are stripped
likewise and the identity frame is inner-merged with it on Sample Name. -/
def _get_study_df (subDirs : List String)
    (participants : Option (List (String × List String))) :
    List (String × List String) :=
  let subject_ids := sortStrings (subDirs.map (fun s => s.drop 4))
  match participants with
  | none => subject_ids.map (fun i => (i, []))
  | some ptable =>
      let renamed := ptable.map (fun r => (r.1.drop 4, r.2))
      innerJoinRows subject_ids renamed

/-- The leaf branch of get_keychains only ever inserts into the
accumulator. -/
theorem leaf_branch_sub (dest : Finset (List String)) (pfx : List String) (c : Bool) :
    dest ⊆ if c then insert pfx dest else dest := by
  cases c
  · exact Finset.Subset.refl _
  · exact Finset.subset_insert _ _

mutual

/-- Accumulator monotonicity of get_keychains: the returned set contains
every previously accumulated key path. -/
theorem keychains_mono : ∀ (d : Value) (dest : Finset (List String)) (pfx : List String),
    dest ⊆ get_keychains d dest pfx
  | .dict entries, dest, pfx => keychainsEntries_mono entries dest pfx
  | .null, dest, pfx => leaf_branch_sub dest pfx _
  | .bool _, dest, pfx => leaf_branch_sub dest pfx _
  | .int _, dest, pfx => leaf_branch_sub dest pfx _
  | .str _, dest, pfx => leaf_branch_sub dest pfx _
  | .list _, dest, pfx => leaf_branch_sub dest pfx _

/-- Accumulator monotonicity of the entry loop of get_keychains. -/
theorem keychainsEntries_mono : ∀ (entries : List (String × Value))
    (dest : Finset (List String)) (pfx : List String),
    dest ⊆ get_keychainsEntries entries dest pfx
  | [], dest, _ => Finset.Subset.refl dest
  | (k, v) :: rest, dest, pfx =>
      Finset.Subset.trans (keychains_mono v dest (pfx ++ [k]))
        (keychainsEntries_mono rest (get_keychains v dest (pfx ++ [k])) pfx)

end

/-- A key absent from the key list is not found by dictGet. -/
theorem dictGet_eq_none_of_not_contains {α : Type} :
    ∀ (entries : List (String × α)) (k : String),
    (entries.map Prod.fst).contains k = false → dictGet entries k = none
  | [], _, _ => rfl
  | (k', v') :: rest, k, h => by
      simp only [List.map_cons, List.contains_cons] at h
      rw [Bool.or_eq_false_iff] at h
      have hne : ¬k' = k := by
        intro he
        rw [he] at h
        simp at h
      simp only [dictGet, if_neg hne]
      exact dictGet_eq_none_of_not_contains rest k h.2

/-- With pairwise distinct keys, dictGet finds the value of any member
binding. -/
theorem dictGet_of_mem_nodup {α : Type} :
    ∀ (entries : List (String × α)) (k : String) (v : α),
    keysNodup (entries.map Prod.fst) = true → (k, v) ∈ entries →
    dictGet entries k = some v
  | [], _, _, _, hm => absurd hm (List.not_mem_nil _)
  | (k', v') :: rest, k, v, hnd, hm => by
      simp only [List.map_cons, keysNodup, Bool.and_eq_true, Bool.not_eq_true'] at hnd
      rcases List.mem_cons.mp hm with he | hr
      · obtain ⟨hk, hv⟩ := Prod.mk.injEq .. ▸ he
        simp [dictGet, hk.symm, hv]
      · have hne : ¬k' = k := by
          intro he
          have : k ∈ rest.map Prod.fst := List.mem_map_of_mem Prod.fst hr
          rw [he] at hnd
          rw [List.contains_eq_any_beq] at hnd
          have := List.any_eq_false.mp hnd.1 k this
          simp at this
        simp only [dictGet, if_neg hne]
        exact dictGet_of_mem_nodup rest k v hnd.2 hr

/-- Membership in the result of the leaf branch of get_keychains. -/
theorem leaf_branch_mem (d : Value) (dest : Finset (List String)) (pfx p : List String)
    (h : p ∈ (if truthy d && !isUndef d then insert pfx dest else dest)) :
    p ∈ dest ∨ ∃ suffix w, p = pfx ++ suffix ∧ walkValue suffix d = some w ∧
      truthy w = true ∧ isUndef w = false := by
  by_cases hc : (truthy d && !isUndef d) = true
  · rw [if_pos hc] at h
    rcases Finset.mem_insert.mp h with he | hd
    · rw [Bool.and_eq_true, Bool.not_eq_true'] at hc
      exact Or.inr ⟨[], d, by simp [he], rfl, hc.1, hc.2⟩
    · exact Or.inl hd
  · rw [if_neg hc] at h
    exact Or.inl h

mutual

/-- Soundness of get_keychains on well-formed documents: every key path
in the result either was already accumulated or walks from the prefix to
a truthy, non-sentinel leaf of the document. -/
theorem keychains_sound : ∀ (d : Value) (dest : Finset (List String)) (pfx p : List String),
    wfV d = true → p ∈ get_keychains d dest pfx →
    p ∈ dest ∨ ∃ suffix w, p = pfx ++ suffix ∧ walkValue suffix d = some w ∧
      truthy w = true ∧ isUndef w = false
  | .dict entries, dest, pfx, p => fun hwf h => by
      rw [show wfV (.dict entries) =
        (keysNodup (entries.map Prod.fst) && wfL entries) from rfl, Bool.and_eq_true] at hwf
      rcases keychainsEntries_sound entries dest pfx p hwf.2 h with hd | ⟨k, v, suffix, w, hmem, hp, hwalk, ht, hu⟩
      · exact Or.inl hd
      · refine Or.inr ⟨k :: suffix, w, hp, ?_, ht, hu⟩
        rw [show walkValue (k :: suffix) (.dict entries) =
          (match dictGet entries k with
           | some v => walkValue suffix v
           | none => none) from rfl]
        rw [dictGet_of_mem_nodup entries k v hwf.1 hmem]
        exact hwalk
  | .null, dest, pfx, p => fun _ h => leaf_branch_mem .null dest pfx p h
  | .bool b, dest, pfx, p => fun _ h => leaf_branch_mem (.bool b) dest pfx p h
  | .int n, dest, pfx, p => fun _ h => leaf_branch_mem (.int n) dest pfx p h
  | .str s, dest, pfx, p => fun _ h => leaf_branch_mem (.str s) dest pfx p h
  | .list l, dest, pfx, p => fun _ h => leaf_branch_mem (.list l) dest pfx p h

/-- Soundness of the entry loop of get_keychains. -/
theorem keychainsEntries_sound : ∀ (entries : List (String × Value))
    (dest : Finset (List String)) (pfx p : List String),
    wfL entries = true → p ∈ get_keychainsEntries entries dest pfx →
    p ∈ dest ∨ ∃ k v suffix w, (k, v) ∈ entries ∧ p = pfx ++ k :: suffix ∧
      walkValue suffix v = some w ∧ truthy w = true ∧ isUndef w = false
  | [], dest, pfx, p => fun _ h => Or.inl h
  | (k, v) :: rest, dest, pfx, p => fun hwf h => by
      rw [show wfL ((k, v) :: rest) = (wfV v && wfL rest) from rfl, Bool.and_eq_true] at hwf
      rcases keychainsEntries_sound rest (get_keychains v dest (pfx ++ [k])) pfx p hwf.2 h with
        hv | ⟨k', v', suffix, w, hmem, hp, hwalk, ht, hu⟩
      · rcases keychains_sound v dest (pfx ++ [k]) p hwf.1 hv with
          hd | ⟨suffix, w, hp, hwalk, ht, hu⟩
        · exact Or.inl hd
        · exact Or.inr ⟨k, v, suffix, w, List.mem_cons_self _ _,
            by rw [hp]; simp, hwalk, ht, hu⟩
      · exact Or.inr ⟨k', v', suffix, w, List.mem_cons_of_mem _ hmem, hp, hwalk, ht, hu⟩

end

/-- When the plain walk finds a value, get_chainvalue returns it (every
step went through a dict that had the key, so neither the KeyError nor
the TypeError path is taken). -/
theorem walkValue_chainvalue (chain : List String) : ∀ (d w : Value),
    walkValue chain d = some w → get_chainvalue chain d = .ok (some w) := by
  induction chain with
  | nil =>
      intro d w h
      rw [show walkValue [] d = some d from rfl] at h
      cases h
      rfl
  | cons key rest ih =>
      intro d w h
      cases d with
      | dict entries =>
          rw [show walkValue (key :: rest) (.dict entries) =
            (match dictGet entries key with
             | some v => walkValue rest v
             | none => none) from rfl] at h
          rw [show get_chainvalue (key :: rest) (.dict entries) =
            (match dictGet entries key with
             | some v => get_chainvalue rest v
             | none => .ok none) from rfl]
          cases hg : dictGet entries key with
          | none => rw [hg] at h; cases h
          | some v =>
              rw [hg] at h
              exact ih v w h
      | null => exact Option.noConfusion h
      | bool b => exact Option.noConfusion h
      | int n => exact Option.noConfusion h
      | str s => exact Option.noConfusion h
      | list l => exact Option.noConfusion h

/-- dictSet stores the assigned value at the assigned key. -/
theorem dictGet_dictSet_self : ∀ (m : List (String × Value)) (key : String) (v : Value),
    dictGet (dictSet m key v) key = some v
  | [], key, v => by simp [dictSet, dictGet]
  | (k, w) :: rest, key, v => by
      by_cases h : k = key
      · simp [dictSet, if_pos h, dictGet, h]
      · simp only [dictSet, if_neg h, dictGet, if_neg h]
        exact dictGet_dictSet_self rest key v

/-- dictSet leaves every other key untouched. -/
theorem dictGet_dictSet_ne : ∀ (m : List (String × Value)) (key k : String) (v : Value),
    ¬key = k → dictGet (dictSet m key v) k = dictGet m k
  | [], key, k, v, h => by simp [dictSet, dictGet, if_neg h]
  | (k', w) :: rest, key, k, v, h => by
      by_cases hk : k' = key
      · have hk2 : ¬k' = k := by rw [hk]; exact h
        simp only [dictSet, if_pos hk, dictGet, if_neg hk2]
      · simp only [dictSet, if_neg hk, dictGet]
        by_cases hk3 : k' = k
        · simp [if_pos hk3]
        · simp only [if_neg hk3]
          exact dictGet_dictSet_ne rest key k v h

/-- dict.update with a document that lacks the key does not change what
the key maps to. -/
theorem dictGet_update_none : ∀ (upd base : List (String × Value)) (k : String),
    dictGet upd k = none → dictGet (dict_update base upd) k = dictGet base k
  | [], base, k, _ => rfl
  | (k', v') :: rest, base, k, h => by
      rw [show dictGet ((k', v') :: rest) k =
        (if k' = k then some v' else dictGet rest k) from rfl] at h
      by_cases hk : k' = k
      · rw [if_pos hk] at h; cases h
      · rw [if_neg hk] at h
        rw [show dict_update base ((k', v') :: rest) =
          dict_update (dictSet base k' v') rest from rfl]
        rw [dictGet_update_none rest (dictSet base k' v') k h]
        exact dictGet_dictSet_ne base k' k v' hk

/-- dict.update with a duplicate-free document that has the key makes the
result map the key to the value from that document (the override direction of the
merge). -/
theorem dictGet_update_some : ∀ (upd base : List (String × Value)) (k : String) (v : Value),
    keysNodup (upd.map Prod.fst) = true → dictGet upd k = some v →
    dictGet (dict_update base upd) k = some v
  | [], base, k, v, _, h => by cases h
  | (k', v') :: rest, base, k, v, hnd, h => by
      rw [show keysNodup (((k', v') :: rest).map Prod.fst) =
        (!((rest.map Prod.fst).contains k') && keysNodup (rest.map Prod.fst)) from rfl,
        Bool.and_eq_true, Bool.not_eq_true'] at hnd
      rw [show dictGet ((k', v') :: rest) k =
        (if k' = k then some v' else dictGet rest k) from rfl] at h
      rw [show dict_update base ((k', v') :: rest) =
        dict_update (dictSet base k' v') rest from rfl]
      by_cases hk : k' = k
      · rw [if_pos hk] at h
        have hrest : dictGet rest k = none := by
          apply dictGet_eq_none_of_not_contains
          rw [← hk]
          exact hnd.1
        rw [dictGet_update_none rest (dictSet base k' v') k hrest, ← hk,
          dictGet_dictSet_self]
        exact h
      · rw [if_neg hk] at h
        exact dictGet_update_some rest (dictSet base k' v') k v hnd.2 h

/-- Splitting the merge fold at an appended final document. -/
theorem merge_docs_append_last (docs : List (Option (List (String × Value))))
    (fd : List (String × Value)) :
    merge_docs (docs ++ [some fd]) = dict_update (merge_docs docs) fd := by
  simp [merge_docs, List.foldl_append]

/-- Documents after a given point that all lack the key leave its binding
unchanged through the merge fold. -/
theorem dictGet_fold_post : ∀ (post : List (Option (List (String × Value))))
    (acc : List (String × Value)) (k : String),
    (∀ e ∈ post.filterMap id, dictGet e k = none) →
    dictGet (post.foldl
      (fun acc doc =>
        match doc with
        | some prm => dict_update acc prm
        | none => acc) acc) k = dictGet acc k
  | [], _, _, _ => rfl
  | none :: rest, acc, k, h => by
      rw [show (none :: rest).foldl
        (fun acc doc =>
          match doc with
          | some prm => dict_update acc prm
          | none => acc) acc =
        rest.foldl
          (fun acc doc =>
            match doc with
            | some prm => dict_update acc prm
            | none => acc) acc from rfl]
      apply dictGet_fold_post rest acc k
      intro e he
      exact h e (by simpa using he)
  | some d :: rest, acc, k, h => by
      rw [show (some d :: rest).foldl
        (fun acc doc =>
          match doc with
          | some prm => dict_update acc prm
          | none => acc) acc =
        rest.foldl
          (fun acc doc =>
            match doc with
            | some prm => dict_update acc prm
            | none => acc) (dict_update acc d) from rfl]
      have hd : dictGet d k = none := h d (by simp)
      rw [dictGet_fold_post rest (dict_update acc d) k
        (fun e he => h e (by simp [he]))]
      exact dictGet_update_none d acc k hd

/-- The merge fold ignores absent documents: it equals the fold over the
present documents only. -/
theorem fold_docs_filterMap : ∀ (docs : List (Option (List (String × Value))))
    (acc : List (String × Value)),
    docs.foldl
      (fun acc doc =>
        match doc with
        | some prm => dict_update acc prm
        | none => acc) acc =
    (docs.filterMap id).foldl (fun acc prm => dict_update acc prm) acc
  | [], _ => rfl
  | none :: rest, acc => by
      simpa using fold_docs_filterMap rest acc
  | some d :: rest, acc => by
      simpa using fold_docs_filterMap rest (dict_update acc d)

/-- get_chainvalue returns normally exactly when every value it
subscripts along the chain is a dict. -/
theorem exceptOk_chainvalue_eq (chain : List String) : ∀ (doc : Value),
    exceptOk (get_chainvalue chain doc) = dictsAlong chain doc := by
  induction chain with
  | nil => intro doc; rfl
  | cons key rest ih =>
      intro doc
      cases doc with
      | dict entries =>
          rw [show get_chainvalue (key :: rest) (.dict entries) =
            (match dictGet entries key with
             | some v => get_chainvalue rest v
             | none => .ok none) from rfl,
            show dictsAlong (key :: rest) (.dict entries) =
            (match dictGet entries key with
             | some v => dictsAlong rest v
             | none => true) from rfl]
          cases hg : dictGet entries key with
          | none => rfl
          | some v => exact ih v
      | null => rfl
      | bool b => rfl
      | int n => rfl
      | str s => rfl
      | list l => rfl

/-- When the walk runs into a dict that lacks the next key, get_chainvalue
takes the caught-KeyError path and returns None. -/
theorem chainvalue_of_missesKey (chain : List String) : ∀ (doc : Value),
    missesKey chain doc = true → get_chainvalue chain doc = .ok none := by
  induction chain with
  | nil => intro doc h; exact Bool.noConfusion h
  | cons key rest ih =>
      intro doc h
      cases doc with
      | dict entries =>
          rw [show missesKey (key :: rest) (.dict entries) =
            (match dictGet entries key with
             | some v => missesKey rest v
             | none => true) from rfl] at h
          rw [show get_chainvalue (key :: rest) (.dict entries) =
            (match dictGet entries key with
             | some v => get_chainvalue rest v
             | none => .ok none) from rfl]
          cases hg : dictGet entries key with
          | none => rfl
          | some v =>
              rw [hg] at h
              exact ih v h
      | null => exact Bool.noConfusion h
      | bool b => exact Bool.noConfusion h
      | int n => exact Bool.noConfusion h
      | str s => exact Bool.noConfusion h
      | list l => exact Bool.noConfusion h

/-- The leaf branch of get_keychains adds nothing when the leaf is falsy
or equals the sentinel. -/
theorem falsy_branch (dest : Finset (List String)) (pfx : List String) (d : Value)
    (h : truthy d = false ∨ d = Value.str "UNDEFINED") :
    (if truthy d && !isUndef d then insert pfx dest else dest) = dest := by
  have hcond : (truthy d && !isUndef d) = false := by
    rcases h with ht | he
    · rw [ht]; rfl
    · subst he; rfl
  rw [hcond]
  rfl

/-- C1.  The claim states that qualitative ontology entries produce
per-row Term Source REF / Term Accession Number columns, with null terms
and an unknown-value warning for every raw value outside the known set.
The code does not do this: the qualitative branch of
_df_with_ontology_info is guarded by `elif isinstance(term_map, tuple)`,
the same test that already guarded the quantitative branch, so it is
unreachable.  On the qualitative column Characteristics[sex] with values
male, female, other, the output carries no term columns at all and no
warning is reported; the quantitative path (second conjunct) works as
described, confirming the embedding of the branch structure. -/
theorem qualitative_branch_dead :
    _df_with_ontology_info [("Characteristics[sex]",
        [some (Value.str "male"), some (Value.str "female"), some (Value.str "other")])]
      = ([("Characteristics[sex]", ColData.series
            [some (Value.str "male"), some (Value.str "female"), some (Value.str "other")])], [])
  ∧ _df_with_ontology_info [("Characteristics[age at scan]", [some (Value.int 25)])]
      = ([("Characteristics[age at scan]", ColData.series [some (Value.int 25)]),
          ("Unit", ColData.scalar (Value.str "year")),
          ("Term Source REF", ColData.scalar (Value.str "UO")),
          ("Term Accession Number", ColData.scalar (Value.str "UO:0000036"))], []) :=
  ⟨rfl, rfl⟩

/-- C2.  The claim states that the union of discovered key paths is
explicitly sorted before becoming assay-table column order, making the
column order independent of set-iteration order.  It is not: the source
iterates the Python set new_fields directly, so two enumerations of the
same key-path set — here the two orders of the set holding EchoTime and
FlipAngle — yield different column orders. -/
theorem assay_columns_order_dependent :
    ({["EchoTime"], ["FlipAngle"]} : Finset (List String)) = {["FlipAngle"], ["EchoTime"]}
  ∧ assay_columns [["EchoTime"], ["FlipAngle"]] ≠ assay_columns [["FlipAngle"], ["EchoTime"]] := by
  constructor
  · decide
  · decide

/-- C3.  The first conjunct shows the true part of the claim on a
concrete input: one row per discovered subject, sorted by subject id.
The second conjunct shows the false part: _get_study_df merges with the
pandas default inner join, so subject 02, which has no participants.tsv
row, silently disappears from the study table instead of being surfaced
as an error. -/
theorem study_join_drops_unmatched :
    _get_study_df ["sub-02", "sub-01"] none = [("01", []), ("02", [])]
  ∧ _get_study_df ["sub-01", "sub-02"] (some [("sub-01", ["29"])]) = [("01", ["29"])] :=
  ⟨rfl, rfl⟩

/-- C4.  Metadata merge semantics of get_metadata_for_nifti: (1) a key
present in the final (File-level) document takes the value of that document,
whatever earlier documents said — a shallow wholesale override; (2) a key
present in an intermediate (Subject-level) document and absent from all
later present documents keeps the value of the intermediate document, so it
propagates to every file whose candidate list contains that document;
(3) absent candidate documents are skipped: the merge equals the merge of
the present documents only. -/
theorem merge_semantics :
    (∀ (docs : List (Option (List (String × Value)))) (fileDoc : List (String × Value))
        (k : String) (v : Value),
        keysNodup (fileDoc.map Prod.fst) = true → dictGet fileDoc k = some v →
        dictGet (merge_docs (docs ++ [some fileDoc])) k = some v)
  ∧ (∀ (docsPre : List (Option (List (String × Value)))) (subjDoc : List (String × Value))
        (post : List (Option (List (String × Value)))) (k : String) (v : Value),
        keysNodup (subjDoc.map Prod.fst) = true → dictGet subjDoc k = some v →
        (∀ e ∈ post.filterMap id, dictGet e k = none) →
        dictGet (merge_docs (docsPre ++ some subjDoc :: post)) k = some v)
  ∧ (∀ docs : List (Option (List (String × Value))),
        merge_docs docs = merge_present (docs.filterMap id)) := by
  refine ⟨?_, ?_, ?_⟩
  · intro docs fileDoc k v hnd hget
    rw [merge_docs_append_last]
    exact dictGet_update_some fileDoc (merge_docs docs) k v hnd hget
  · intro docsPre subjDoc post k v hnd hget hpost
    have h1 : merge_docs (docsPre ++ some subjDoc :: post) =
        post.foldl
          (fun acc doc =>
            match doc with
            | some prm => dict_update acc prm
            | none => acc) (dict_update (merge_docs docsPre) subjDoc) := by
      rw [show merge_docs (docsPre ++ some subjDoc :: post) =
        (docsPre ++ some subjDoc :: post).foldl
          (fun acc doc =>
            match doc with
            | some prm => dict_update acc prm
            | none => acc) [] from rfl, List.foldl_append]
      rfl
    rw [h1, dictGet_fold_post post (dict_update (merge_docs docsPre) subjDoc) k hpost]
    exact dictGet_update_some subjDoc (merge_docs docsPre) k v hnd hget
  · intro docs
    exact fold_docs_filterMap docs []

/-- Witness for C4 at concrete inputs: the File-level value 3 overrides
the Top-level value 1 for key A; the Subject-level value for key B
survives two later candidates that lack B; a merge with an absent
candidate equals the merge of the present documents. -/
theorem merge_semantics_witness :
    dictGet (merge_docs [some [("A", Value.int 1), ("B", Value.str "t")],
        some [("A", Value.int 3)]]) "A" = some (Value.int 3)
  ∧ dictGet (merge_docs [none, some [("B", Value.str "s")], none,
        some [("C", Value.int 7)]]) "B" = some (Value.str "s")
  ∧ merge_docs [some [("A", Value.int 1)], none] = merge_present [[("A", Value.int 1)]] := by
  refine ⟨?_, ?_, ?_⟩
  · exact merge_semantics.1 [some [("A", Value.int 1), ("B", Value.str "t")]]
      [("A", Value.int 3)] "A" (Value.int 3) rfl rfl
  · refine merge_semantics.2.1 [none] [("B", Value.str "s")]
      [none, some [("C", Value.int 7)]] "B" (Value.str "s") rfl rfl ?_
    intro e he
    simp only [List.filterMap_cons, List.filterMap_nil, id] at he
    rcases List.mem_cons.mp he with h1 | h1
    · rw [h1]; rfl
    · exact absurd h1 (List.not_mem_nil e)
  · exact merge_semantics.2.2 [some [("A", Value.int 1)], none]

/-- C5.  Flatten/lookup consistency on well-formed documents (Python
dicts cannot hold duplicate keys, which wfV captures): every key path
produced by get_keychains on a document is looked up successfully by
get_chainvalue, returning a value that is truthy — in particular not
Python None — and not the sentinel string UNDEFINED. -/
theorem flatten_lookup_consistent (doc : Value) (p : List String)
    (hwf : wfV doc = true) (hp : p ∈ get_keychains doc ∅ []) :
    ∃ v, get_chainvalue p doc = .ok (some v) ∧ truthy v = true
      ∧ isUndef v = false ∧ v ≠ Value.null := by
  rcases keychains_sound doc ∅ [] p hwf hp with hmem | ⟨suf, w, hpe, hwalk, ht, hu⟩
  · exact absurd hmem (Finset.not_mem_empty p)
  · rw [List.nil_append] at hpe
    rw [hpe]
    refine ⟨w, walkValue_chainvalue suf doc w hwalk, ht, hu, ?_⟩
    intro hn
    rw [hn] at ht
    exact Bool.noConfusion ht

/-- Witness for C5: the key path a.b discovered in a concrete document is
looked up successfully and yields the truthy non-sentinel leaf. -/
theorem flatten_lookup_consistent_witness :
    wfV (Value.dict [("a", Value.dict [("b", Value.str "x")]), ("c", Value.int 0)]) = true
  ∧ (["a", "b"] : List String) ∈ get_keychains
      (Value.dict [("a", Value.dict [("b", Value.str "x")]), ("c", Value.int 0)]) ∅ []
  ∧ ∃ v, get_chainvalue ["a", "b"]
        (Value.dict [("a", Value.dict [("b", Value.str "x")]), ("c", Value.int 0)])
        = .ok (some v)
      ∧ truthy v = true ∧ isUndef v = false ∧ v ≠ Value.null :=
  ⟨rfl, by decide,
    flatten_lookup_consistent
      (Value.dict [("a", Value.dict [("b", Value.str "x")]), ("c", Value.int 0)])
      ["a", "b"] rfl (by decide)⟩

/-- C6 counterexample.  The claim says get_chainvalue never raises, in
particular not when an intermediate value is a scalar.  But on the
document mapping a to the scalar 5, looking up the path a.b subscripts
the integer 5 with the key b: that raises a TypeError, which the
`except KeyError` handler does not catch, so the call does not return
None — it propagates the exception. -/
theorem chainvalue_raises_on_scalar :
    get_chainvalue ["a", "b"] (Value.dict [("a", Value.int 5)]) = Except.error ()
    ∧ get_chainvalue ["a", "b"] (Value.dict [("a", Value.int 5)]) ≠ Except.ok none := by
  refine ⟨rfl, fun h => ?_⟩
  rw [show get_chainvalue ["a", "b"] (Value.dict [("a", Value.int 5)])
    = Except.error () from rfl] at h
  exact Except.noConfusion h

/-- C6 amended.  get_chainvalue returns normally exactly when every value
it subscripts along the key path is a mapping (a scalar intermediate
raises an uncaught TypeError), and whenever the walk meets a mapping that
lacks the next key it returns null via the caught KeyError. -/
theorem chainvalue_amended :
    (∀ (chain : List String) (doc : Value),
        exceptOk (get_chainvalue chain doc) = dictsAlong chain doc)
  ∧ (∀ (chain : List String) (doc : Value),
        missesKey chain doc = true → get_chainvalue chain doc = .ok none) :=
  ⟨exceptOk_chainvalue_eq, chainvalue_of_missesKey⟩

/-- Witness for the amended C6: looking up key a in an empty document
takes the missing-key path and returns null. -/
theorem chainvalue_amended_witness :
    missesKey ["a"] (Value.dict []) = true
  ∧ get_chainvalue ["a"] (Value.dict []) = .ok none :=
  ⟨rfl, chainvalue_amended.2 ["a"] (Value.dict []) rfl⟩

/-- C7.  With the drop argument "unknown", _drop_from_df retains exactly
the columns whose name is a key of ontology_term_map — a membership
characterisation independent of the input order — and the dropped
(reported) columns are exactly the input columns outside that key set. -/
theorem drop_unlisted_exact (cols : List String) (c : String) :
    (c ∈ (_drop_from_df cols .unknown).1 ↔ c ∈ cols ∧ ontology_keys.contains c = true)
  ∧ (c ∈ (_drop_from_df cols .unknown).2 ↔ c ∈ cols ∧ ontology_keys.contains c = false) := by
  have hdrop : ∀ x : String,
      (cols.filter (fun k => !ontology_keys.contains k)).contains x = true ↔
        (x ∈ cols ∧ ontology_keys.contains x = false) := by
    intro x
    rw [List.elem_iff, List.mem_filter, Bool.not_eq_true']
  constructor
  · rw [show (_drop_from_df cols .unknown).1 =
      cols.filter (fun k => !(cols.filter (fun kk => !ontology_keys.contains kk)).contains k)
      from rfl]
    rw [List.mem_filter, Bool.not_eq_true']
    constructor
    · rintro ⟨hc, hnc⟩
      refine ⟨hc, ?_⟩
      cases hh : ontology_keys.contains c with
      | true => rfl
      | false =>
          have hmem := (hdrop c).mpr ⟨hc, hh⟩
          rw [hmem] at hnc
          exact Bool.noConfusion hnc
    · rintro ⟨hc, ho⟩
      refine ⟨hc, ?_⟩
      cases hh : (cols.filter (fun kk => !ontology_keys.contains kk)).contains c with
      | false => rfl
      | true =>
          have ho2 := ((hdrop c).mp hh).2
          rw [ho] at ho2
          exact Bool.noConfusion ho2
  · rw [show (_drop_from_df cols .unknown).2 =
      cols.filter (fun k => (cols.filter (fun kk => !ontology_keys.contains kk)).contains k)
      from rfl]
    rw [List.mem_filter]
    constructor
    · rintro ⟨hc, hd⟩
      exact ⟨hc, ((hdrop c).mp hd).2⟩
    · rintro ⟨hc, ho⟩
      exact ⟨hc, (hdrop c).mpr ⟨hc, ho⟩⟩

/-- C8.  get_keychains excludes every falsy leaf — Python None, False, 0,
the empty string, the empty list and the empty dict — as well as the
sentinel string UNDEFINED: flattening such a value adds no key path to
the accumulator, so such a field never becomes a column. -/
theorem falsy_leaves_excluded (d : Value) (dest : Finset (List String)) (pfx : List String)
    (h : truthy d = false ∨ d = Value.str "UNDEFINED") :
    get_keychains d dest pfx = dest := by
  cases d with
  | dict entries =>
      rcases h with ht | he
      · rw [show truthy (.dict entries) = !entries.isEmpty from rfl,
          Bool.not_eq_false'] at ht
        rw [List.isEmpty_iff.mp ht]
        rfl
      · exact Value.noConfusion he
  | null => exact falsy_branch dest pfx .null h
  | bool b => exact falsy_branch dest pfx (.bool b) h
  | int n => exact falsy_branch dest pfx (.int n) h
  | str s => exact falsy_branch dest pfx (.str s) h
  | list l => exact falsy_branch dest pfx (.list l) h

/-- Witness for C8: flattening the falsy leaf 0 leaves the accumulator
unchanged. -/
theorem falsy_leaves_excluded_witness :
    (truthy (Value.int 0) = false ∨ Value.int 0 = Value.str "UNDEFINED")
  ∧ get_keychains (Value.int 0) {["x"]} ["a"] = {["x"]} :=
  ⟨Or.inl rfl, falsy_leaves_excluded (Value.int 0) {["x"]} ["a"] (Or.inl rfl)⟩

/-- C9.  The parameter-name list returned by _get_mri_assay_df is the
constant Resolution, Modality for every input, and the investigation
template receives its semicolon join Resolution;Modality, independent of
the discovered parameter columns. -/
theorem mri_par_names_constant (newFieldsEnum : List (List String))
    (template title : String) :
    (_get_mri_assay_df newFieldsEnum).2 = ["Resolution", "Modality"]
  ∧ _get_investigation_template template title (_get_mri_assay_df newFieldsEnum).2
    = (template.replace "[TODO: TITLE]" title).replace
        "[TODO: MRI_PAR_NAMES]" "Resolution;Modality" := by
  refine ⟨rfl, ?_⟩
  have h : String.intercalate ";" ["Resolution", "Modality"] = "Resolution;Modality" := by
    decide
  show (template.replace "[TODO: TITLE]" title).replace
    "[TODO: MRI_PAR_NAMES]" (String.intercalate ";" mri_par_names) = _
  rw [show (mri_par_names : List String) = ["Resolution", "Modality"] from rfl, h]

/-- C10.  Accumulation of key paths with get_keychains is monotone: the
result always contains the previously accumulated set, for every
document, accumulator and prefix. -/
theorem keychains_superset (d : Value) (dest : Finset (List String)) (pfx : List String) :
    dest ⊆ get_keychains d dest pfx :=
  keychains_mono d dest pfx
